import Mathlib

/-!
Verification development for the sunburst-chart widget (src/sunburst.js).

The widget delegates its layout to d3-hierarchy as invoked in `_parseData`
(lines 52-70 of src/sunburst.js):
  `d3Hierarchy(data, children).sum(size)` followed by
  `d3Partition().padding(0)(hierData)` and
  `hierData.descendants().forEach((d, i) => d.id = i)`.
The definitions below embed the raw data tree, the aggregate-value
computation of node.sum, the partition layout with its default
size of [1, 1] (dx = 1, dy = 1, padding = 0, round = false), including
treemapDice and the positionNode padding/collapse step, and the
breadth-first order of node.each / node.descendants.  Numbers are
modelled as exact rationals.
-/

/-- A raw data node as consumed by the chart: the numeric result of the
size accessor at this node and the list of child nodes produced by the
children accessor (src/sunburst.js lines 54-55). -/
inductive Raw : Type where
  | node (size : ℚ) (children : List Raw)

/-- Own size of a raw node (the size accessor result, coerced to a number). -/
def Raw.size : Raw → ℚ
  | .node s _ => s

/-- Children of a raw node. -/
def Raw.kids : Raw → List Raw
  | .node _ cs => cs

mutual

/-- Aggregate value of a node: d3-hierarchy node.sum as invoked on line 55,
which sets value = own size plus the values of all children (the own size
of internal nodes is included in the sum). -/
def val : Raw → ℚ
  | .node s cs => s + valList cs
termination_by structural t => t

/-- Sum of the aggregate values of a list of sibling nodes. -/
def valList : List Raw → ℚ
  | [] => 0
  | c :: rest => val c + valList rest
termination_by structural l => l

end

mutual

/-- d3-hierarchy node.height: number of edges on the longest downward path. -/
def Raw.height : Raw → ℕ
  | .node _ cs => Raw.heightList cs
termination_by structural t => t

/-- Helper for Raw.height: maximum of height + 1 over a list of siblings. -/
def Raw.heightList : List Raw → ℕ
  | [] => 0
  | c :: rest => max (Raw.height c + 1) (Raw.heightList rest)
termination_by structural l => l

end

mutual

/-- All size-accessor results in the tree are nonnegative. -/
def sizesOK : Raw → Bool
  | .node s cs => decide (0 ≤ s) && sizesOKL cs
termination_by structural t => t

/-- All size-accessor results in a list of subtrees are nonnegative. -/
def sizesOKL : List Raw → Bool
  | [] => true
  | c :: rest => sizesOK c && sizesOKL rest
termination_by structural l => l

end

mutual

/-- Every internal (non-leaf) node has its own size equal to 0, i.e.
sizes are carried by leaves only. -/
def leafOnly : Raw → Bool
  | .node _ [] => true
  | .node s (c :: rest) => decide (s = 0) && leafOnlyL (c :: rest)
termination_by structural t => t

/-- leafOnly over a list of subtrees. -/
def leafOnlyL : List Raw → Bool
  | [] => true
  | c :: rest => leafOnly c && leafOnlyL rest
termination_by structural l => l

end

/-- A laid-out node: the x0/x1/y0/y1 coordinates that
d3Partition().padding(0) stores on each hierarchy node, its aggregate
value, and its laid-out children. -/
inductive LTree : Type where
  | node (x0 x1 y0 y1 v : ℚ) (children : List LTree)

/-- Left angular coordinate of a laid-out node. -/
def LTree.x0 : LTree → ℚ
  | .node a _ _ _ _ _ => a

/-- Right angular coordinate of a laid-out node. -/
def LTree.x1 : LTree → ℚ
  | .node _ b _ _ _ _ => b

/-- Inner radial coordinate of a laid-out node. -/
def LTree.y0 : LTree → ℚ
  | .node _ _ c _ _ _ => c

/-- Outer radial coordinate of a laid-out node. -/
def LTree.y1 : LTree → ℚ
  | .node _ _ _ d _ _ => d

/-- Aggregate value stored on a laid-out node. -/
def LTree.v : LTree → ℚ
  | .node _ _ _ _ v _ => v

/-- Children of a laid-out node. -/
def LTree.kids : LTree → List LTree
  | .node _ _ _ _ _ cs => cs

/-- Default laid-out node, used only as the fallback of List.getD. -/
def dfltL : LTree := .node 0 0 0 0 0 []

mutual

/-- The positionNode step of d3-partition (default dx = 1, dy = 1,
padding = 0, round = false), run by eachBefore over the tree: a node
visited with pre-collapse coordinates x0/x1/y0/y1 at depth d (in a tree
with n = height + 1 levels) first dices its children over
[x0, x1] x [(d+1)/n, (d+2)/n] with treemapDice (each child gets width
child.value * k for k = (x1 - x0) / value, or k = 0 when value = 0), and
then stores its own coordinates, collapsing an inverted interval to its
midpoint. -/
def layoutNode (n d : ℕ) (x0 x1 y0 y1 : ℚ) : Raw → LTree
  | .node s cs =>
    let v := s + valList cs
    let k := if v = 0 then 0 else (x1 - x0) / v
    let kids := layoutChildren n (d + 1) x0 k
      (((d : ℚ) + 1) / (n : ℚ)) (((d : ℚ) + 2) / (n : ℚ)) cs
    let px0 := if x1 < x0 then (x0 + x1) / 2 else x0
    let px1 := if x1 < x0 then (x0 + x1) / 2 else x1
    let py0 := if y1 < y0 then (y0 + y1) / 2 else y0
    let py1 := if y1 < y0 then (y0 + y1) / 2 else y1
    LTree.node px0 px1 py0 py1 v kids
termination_by structural t => t

/-- treemapDice over a list of siblings: starting at angular position x,
each sibling c receives the interval [x, x + val c * k] and the running
position advances by val c * k. -/
def layoutChildren (n d : ℕ) (x k y0 y1 : ℚ) : List Raw → List LTree
  | [] => []
  | c :: rest =>
    layoutNode n d x (x + val c * k) y0 y1 c ::
      layoutChildren n d (x + val c * k) k y0 y1 rest
termination_by structural l => l

end

/-- The full layout pass of _parseData: d3Partition().padding(0) with its
default size [1, 1] initialises the root at x0 = 0, x1 = dx = 1, y0 = 0,
y1 = dy / n for n = height + 1 levels, then positions every node. -/
def partitionLayout (t : Raw) : LTree :=
  layoutNode (t.height + 1) 0 0 1 0 (1 / ((t.height : ℚ) + 1)) t

mutual

/-- Number of nodes of a laid-out tree. -/
def LTree.size : LTree → ℕ
  | .node _ _ _ _ _ cs => 1 + LTree.sizeL cs
termination_by structural t => t

/-- Total number of nodes in a list of laid-out trees. -/
def LTree.sizeL : List LTree → ℕ
  | [] => 0
  | u :: r => u.size + LTree.sizeL r
termination_by structural l => l

end

mutual

/-- Height of a laid-out tree. -/
def LTree.height : LTree → ℕ
  | .node _ _ _ _ _ cs => LTree.heightL cs
termination_by structural t => t

/-- Helper for LTree.height. -/
def LTree.heightL : List LTree → ℕ
  | [] => 0
  | u :: r => max (u.height + 1) (LTree.heightL r)
termination_by structural l => l

end

/-- Concatenation of the children lists of a frontier, in order: exactly
how d3 node.each accumulates the next breadth-first level. -/
def kidsAll : List LTree → List LTree
  | [] => []
  | u :: r => u.kids ++ kidsAll r

/-- Breadth-first (level-order) traversal, one level per unit of fuel:
yields the current frontier, then recurses on the concatenation of its
children lists.  With enough fuel this is exactly the order in which d3
node.each (and hence node.descendants) visits nodes. -/
def bfsAux : ℕ → List LTree → List LTree
  | 0, _ => []
  | fuel + 1, frontier => frontier ++ bfsAux fuel (kidsAll frontier)

/-- The flat list hierData.descendants() of line 63/68: all nodes in
breadth-first order, root first. -/
def descendantsList (u : LTree) : List LTree :=
  bfsAux (u.height + 1) [u]

mutual

/-- Pre-order (node before its children, children left to right)
traversal of a laid-out tree, for comparison with the breadth-first
order actually used by descendants(). -/
def preorderT : LTree → List LTree
  | .node a b c d v cs => .node a b c d v cs :: preorderL cs
termination_by structural t => t

/-- Pre-order traversal of a list of laid-out trees. -/
def preorderL : List LTree → List LTree
  | [] => []
  | u :: r => preorderT u ++ preorderL r
termination_by structural l => l

end

/-- The checkers below express the partition invariants the claims talk
about.  chainFrom start stop l holds when the intervals of l tile
[start, stop] exactly: each interval begins where the previous one ended
(first one at start), no interval is inverted, and the last one ends at
stop. -/
def chainFrom : ℚ → ℚ → List LTree → Bool
  | start, stop, [] => decide (start = stop)
  | start, stop, u :: r =>
    decide (u.x0 = start) && decide (u.x0 ≤ u.x1) && chainFrom u.x1 stop r

mutual

/-- Every internal node of the laid-out tree has its angular interval
[x0, x1] exactly partitioned by its children (contiguous, left to right,
no inversion, covering the whole interval). -/
def exactPart : LTree → Bool
  | .node _ _ _ _ _ [] => true
  | .node x0 x1 _ _ _ (c :: rest) =>
    chainFrom x0 x1 (c :: rest) && exactPartL (c :: rest)
termination_by structural t => t

/-- exactPart over a list of subtrees. -/
def exactPartL : List LTree → Bool
  | [] => true
  | u :: r => exactPart u && exactPartL r
termination_by structural l => l

end

mutual

/-- Every node of the laid-out tree satisfies 0 <= x0, x0 <= x1 and
x1 <= 1: angular spans live in the normalized domain [0, 1]. -/
def inUnit : LTree → Bool
  | .node x0 x1 _ _ _ cs =>
    decide (0 ≤ x0) && decide (x0 ≤ x1) && decide (x1 ≤ 1) && inUnitL cs
termination_by structural t => t

/-- inUnit over a list of subtrees. -/
def inUnitL : List LTree → Bool
  | [] => true
  | u :: r => inUnit u && inUnitL r
termination_by structural l => l

end

mutual

/-- Every node at depth d of the laid-out tree has y0 = d / nq and
y1 = (d + 1) / nq: the radial bands d3-partition actually produces with
its default size [1, 1], where nq is the number of levels. -/
def bandsOK (nq : ℚ) : ℕ → LTree → Bool
  | d, .node _ _ y0 y1 _ cs =>
    decide (y0 = (d : ℚ) / nq) && decide (y1 = ((d : ℚ) + 1) / nq) &&
      bandsOKL nq (d + 1) cs
termination_by structural _ t => t

/-- bandsOK over a list of subtrees, all at the same depth. -/
def bandsOKL (nq : ℚ) : ℕ → List LTree → Bool
  | _, [] => true
  | d, u :: r => bandsOK nq d u && bandsOKL nq d r
termination_by structural _ l => l

end

/-- The focus rectangle used by update: either the coordinates of the
focused layout node, or the fallback object of line 126. -/
structure FocusRect where
  x0 : ℚ
  x1 : ℚ
  y0 : ℚ
  y1 : ℚ
deriving DecidableEq

/-- The literal fallback focus of line 126: x0 = 0, x1 = 1, y0 = 0,
y1 = 1. -/
def wholeTreeSentinel : FocusRect := ⟨0, 1, 0, 1⟩

/-- focusD of line 126: the rectangle of the focused node when
state.focusOnNode resolves through its __dataNode link, the sentinel
otherwise. -/
def resolveFocus : Option FocusRect → FocusRect
  | some f => f
  | none => wholeTreeSentinel

/-- The rectangle of a laid-out node, as used when it is the focus. -/
def focusRectOf (u : LTree) : FocusRect := ⟨u.x0, u.x1, u.y0, u.y1⟩

/-- The visibility filter of lines 131-135: a slice is kept when
d.x1 >= focusD.x0, d.x0 <= focusD.x1 and
(d.x1 - d.x0) / (focusD.x1 - focusD.x0) > minSliceAngle / 360. -/
def sliceVisible (minSliceAngle : ℚ) (f : FocusRect) (u : LTree) : Bool :=
  decide (f.x0 ≤ u.x1) && decide (u.x0 ≤ f.x1) &&
    decide (minSliceAngle / 360 < (u.x1 - u.x0) / (f.x1 - f.x0))

/-- The pair of scale domains driven by the zoom tween of lines 144-152:
a0/a1 are the angular scale domain endpoints, r0/r1 the radial ones. -/
structure ScaleDomains where
  a0 : ℚ
  a1 : ℚ
  r0 : ℚ
  r1 : ℚ
deriving DecidableEq

/-- d3 number interpolation: interpNum a b t = a + (b - a) * t. -/
def interpNum (a b t : ℚ) : ℚ := a + (b - a) * t

/-- The scale tween of lines 144-152: at parameter t the angular domain
is interpolated from its current value towards [focusD.x0, focusD.x1]
and the radial domain towards [focusD.y0, 1]. -/
def zoomTween (cur : ScaleDomains) (f : FocusRect) (t : ℚ) : ScaleDomains :=
  ⟨interpNum cur.a0 f.x0 t, interpNum cur.a1 f.x1 t,
    interpNum cur.r0 f.y0 t, interpNum cur.r1 1 t⟩

/-- The fixed per-glyph width of line 14. -/
def CHAR_PX : ℚ := 6

/-- The arc perimeter computed by textFits (lines 238-243): the mean of
the scaled radii at y0 and y1 (clamped below by 0), times the scaled
angular sweep.  The two scale functions are abstract inputs, exactly as
textFits reads them from state. -/
def arcPerimeter (angleScale radiusScale : ℚ → ℚ) (u : LTree) : ℚ :=
  let deltaAngle := angleScale u.x1 - angleScale u.x0
  let r := max 0 ((radiusScale u.y0 + radiusScale u.y1) / 2)
  r * deltaAngle

/-- textFits of lines 238-243: the label fits when
length * CHAR_PX < perimeter. -/
def textFits (angleScale radiusScale : ℚ → ℚ) (labelLen : ℕ) (u : LTree) :
    Bool :=
  decide ((labelLen : ℚ) * CHAR_PX < arcPerimeter angleScale radiusScale u)

/-- The display style applied to a label by line 211:
no override (the label is shown whole) when showLabels and the fit test
both hold, the string "none" (the label is hidden whole) otherwise. -/
def labelDisplay (showLabels fits : Bool) : Option String :=
  if showLabels && fits then none else some "none"

/-- One rendered slice group, as far as the reconciliation claims are
concerned: its data key, its current opacity, whether the last opacity
write went through the shared 750 ms transition, which interaction
handlers are wired, and whether the geometry write went through the
shared transition. -/
structure SliceElem where
  sliceId : ℕ
  opacity : ℚ
  opacityAnimated : Bool
  clickWired : Bool
  mouseoverWired : Bool
  mouseoutWired : Bool
  geomAnimated : Bool
deriving DecidableEq

/-- The enter stage of lines 160-173: an entering slice group is appended
with style opacity 0 (a plain write, not a transition) and the click,
mouseover and mouseout handlers wired. -/
def enterSlice (i : ℕ) : SliceElem :=
  ⟨i, 0, false, true, true, true, false⟩

/-- The data join of lines 128-137: keyed by d.id, each datum of the new
set either keeps its existing element (update) or gets a fresh entering
element. -/
def joinSlices (old : List SliceElem) (newIds : List ℕ) : List SliceElem :=
  newIds.map fun i =>
    match old.find? (fun s => s.sliceId == i) with
    | some s => s
    | none => enterSlice i

/-- The merged enter + update stage of lines 198-207: on every slice of
the merged selection, opacity is set to 1 by a plain style write (line
200, not routed through the shared transition), while the main-arc path
is retargeted through the shared transition (lines 202-204). -/
def renderPass (old : List SliceElem) (newIds : List ℕ) : List SliceElem :=
  (joinSlices old newIds).map fun s =>
    { s with opacity := 1, opacityAnimated := false, geomAnimated := true }

/-- The widget state the data-lifecycle claims are about: the raw data
property and the cached flat layout list. -/
structure ChartState where
  data : Option Raw
  layoutData : Option (List LTree)

/-- The method _parseData of lines 52-70: when data is present, rebuild the
hierarchy, run the partition, and store the descendants list; when data
is absent, do nothing at all (in particular, layoutData is not
cleared). -/
def _parseData (s : ChartState) : ChartState :=
  match s.data with
  | some d => { s with layoutData := some (descendantsList (partitionLayout d)) }
  | none => s

/-- Setting the data property: the prop onChange hook of line 21 stores
the new value and triggers _parseData. -/
def setData (d : Option Raw) (s : ChartState) : ChartState :=
  _parseData { s with data := d }

/-- A freshly initialised widget: no data, no layout. -/
def initState : ChartState := ⟨none, none⟩

/-- The slices bound by update (lines 124-137): nothing when no layout
exists (line 124 returns early), otherwise the layout list filtered by
sliceVisible. -/
def renderSlices (s : ChartState) (minSlice : ℚ) (f : FocusRect) :
    List LTree :=
  match s.layoutData with
  | none => []
  | some l => l.filter (sliceVisible minSlice f)

/-- maxRadius of line 116: half the smaller viewport dimension. -/
def maxRadius (w h : ℚ) : ℚ := min w h / 2

/-- The radius scale range set on line 117 on every update:
[maxRadius * 0.1, maxRadius]. -/
def radiusRange (w h : ℚ) : ℚ × ℚ :=
  (maxRadius w h * (1 / 10), maxRadius w h)

/-- A d3 continuous scale with domain [d0, d1], range [r0, r1] and an
abstract monotone transform (the square root for scaleSqrt; only its
values at the evaluation points matter here): the input is normalized by
(transform x - transform d0) / (transform d1 - transform d0) - or sent
to the constant 1/2 on a degenerate transformed domain, as d3 normalize
does - and the result interpolated over the range. -/
def scaleApply (transform : ℚ → ℚ) (d0 d1 r0 r1 x : ℚ) : ℚ :=
  let a := transform d0
  let b := transform d1
  let t := if b - a = 0 then 1 / 2 else (transform x - a) / (b - a)
  r0 + (r1 - r0) * t

/-- The inner radius the arc generator draws for a node (line 85):
max(0, radiusScale(y0)). -/
def arcInnerRadius (transform : ℚ → ℚ) (d0 d1 r0 r1 y : ℚ) : ℚ :=
  max 0 (scaleApply transform d0 d1 r0 r1 y)

/-- The example tree of the specification scenario:
A with size 0 and children B with size 10 and C with size 30. -/
def demoTree : Raw := .node 0 [.node 10 [], .node 30 []]

/-- A tree whose layout separates breadth-first order from pre-order:
A with children B (which has a grandchild D) and C. -/
def deepTree : Raw := .node 0 [.node 10 [.node 10 []], .node 30 []]

/-- A tree with a zero-size leaf Z between B and C, giving Z a zero-width
slice. -/
def zeroSliceTree : Raw := .node 0 [.node 10 [], .node 0 [], .node 30 []]

/-! ## Helper lemmas -/

/-- The stored x0 of a laid-out node, before looking at its children. -/
theorem layoutNode_x0 (n d : ℕ) (x0 x1 y0 y1 : ℚ) (t : Raw) :
    (layoutNode n d x0 x1 y0 y1 t).x0 = if x1 < x0 then (x0 + x1) / 2 else x0 := by
  cases t with
  | node s cs => simp [layoutNode, LTree.x0]

/-- The stored x1 of a laid-out node. -/
theorem layoutNode_x1 (n d : ℕ) (x0 x1 y0 y1 : ℚ) (t : Raw) :
    (layoutNode n d x0 x1 y0 y1 t).x1 = if x1 < x0 then (x0 + x1) / 2 else x1 := by
  cases t with
  | node s cs => simp [layoutNode, LTree.x1]

/-- The stored y0 of a laid-out node. -/
theorem layoutNode_y0 (n d : ℕ) (x0 x1 y0 y1 : ℚ) (t : Raw) :
    (layoutNode n d x0 x1 y0 y1 t).y0 = if y1 < y0 then (y0 + y1) / 2 else y0 := by
  cases t with
  | node s cs => simp [layoutNode, LTree.y0]

/-- The stored y1 of a laid-out node. -/
theorem layoutNode_y1 (n d : ℕ) (x0 x1 y0 y1 : ℚ) (t : Raw) :
    (layoutNode n d x0 x1 y0 y1 t).y1 = if y1 < y0 then (y0 + y1) / 2 else y1 := by
  cases t with
  | node s cs => simp [layoutNode, LTree.y1]

mutual

/-- Nonnegative sizes give a nonnegative aggregate value. -/
theorem val_nonneg : ∀ t : Raw, sizesOK t = true → 0 ≤ val t
  | .node s cs, h => by
    simp only [sizesOK, Bool.and_eq_true, decide_eq_true_eq] at h
    simpa only [val] using add_nonneg h.1 (valList_nonneg cs h.2)
termination_by structural t => t

/-- Nonnegative sizes give a nonnegative sibling value sum. -/
theorem valList_nonneg : ∀ l : List Raw, sizesOKL l = true → 0 ≤ valList l
  | [], _ => by simp [valList]
  | c :: rest, h => by
    simp only [sizesOKL, Bool.and_eq_true] at h
    simpa only [valList] using
      add_nonneg (val_nonneg c h.1) (valList_nonneg rest h.2)
termination_by structural l => l

end

/-- A chain of intervals from a to b has widths summing to b - a. -/
theorem chainFrom_sum : ∀ (l : List LTree) (a b : ℚ), chainFrom a b l = true →
    (l.map (fun u => u.x1 - u.x0)).sum = b - a
  | [], a, b, h => by
    simp only [chainFrom, decide_eq_true_eq] at h
    simp [h]
  | u :: r, a, b, h => by
    simp only [chainFrom, Bool.and_eq_true, decide_eq_true_eq] at h
    obtain ⟨⟨h1, _⟩, h3⟩ := h
    have ih := chainFrom_sum r u.x1 b h3
    simp only [List.map_cons, List.sum_cons, ih, h1]
    ring

/-- treemapDice produces a contiguous, non-inverted chain of children
intervals running from x to x + (sum of child values) * k. -/
theorem chain_layoutChildren : ∀ (l : List Raw) (n d : ℕ) (x k y0 y1 : ℚ),
    sizesOKL l = true → 0 ≤ k →
    chainFrom x (x + valList l * k) (layoutChildren n d x k y0 y1 l) = true
  | [], n, d, x, k, y0, y1, _, _ => by
    simp [layoutChildren, chainFrom, valList]
  | c :: rest, n, d, x, k, y0, y1, hs, hk => by
    simp only [sizesOKL, Bool.and_eq_true] at hs
    have hw : 0 ≤ val c * k := mul_nonneg (val_nonneg c hs.1) hk
    have hnl : ¬ (x + val c * k < x) := not_lt.mpr (le_add_of_nonneg_right hw)
    have ih := chain_layoutChildren rest n d (x + val c * k) k y0 y1 hs.2 hk
    simp only [layoutChildren, chainFrom, layoutNode_x0, layoutNode_x1,
      if_neg hnl, Bool.and_eq_true, decide_eq_true_eq]
    refine ⟨⟨trivial, le_add_of_nonneg_right hw⟩, ?_⟩
    have harith : x + valList (c :: rest) * k
        = (x + val c * k) + valList rest * k := by
      simp only [valList]; ring
    rw [harith]
    exact ih

mutual

/-- Under leaf-only nonnegative sizes, a node laid out on a
non-inverted interval whose width vanishes with its value gets an
exactly partitioned subtree. -/
theorem exactPart_layoutNode : ∀ (t : Raw) (n d : ℕ) (x0 x1 y0 y1 : ℚ),
    sizesOK t = true → leafOnly t = true → x0 ≤ x1 → (val t = 0 → x0 = x1) →
    exactPart (layoutNode n d x0 x1 y0 y1 t) = true
  | .node s [], n, d, x0, x1, y0, y1, _, _, _, _ => by
    simp [layoutNode, layoutChildren, exactPart]
  | .node s (c :: rest), n, d, x0, x1, y0, y1, hs, hl, hle, hz => by
    have hnl : ¬ (x1 < x0) := not_lt.mpr hle
    simp only [sizesOK, Bool.and_eq_true, decide_eq_true_eq] at hs
    obtain ⟨hsn, hsL⟩ := hs
    simp only [leafOnly, Bool.and_eq_true, decide_eq_true_eq] at hl
    obtain ⟨hs0, hlL⟩ := hl
    subst hs0
    have hvnn : 0 ≤ valList (c :: rest) := valList_nonneg _ hsL
    simp only [layoutNode, zero_add, if_neg hnl]
    set k := if valList (c :: rest) = 0 then 0
      else (x1 - x0) / valList (c :: rest) with hkdef
    have hknn : 0 ≤ k := by
      rw [hkdef]
      split
      · exact le_rfl
      · exact div_nonneg (sub_nonneg.mpr hle) hvnn
    have hchain := chain_layoutChildren (c :: rest) n (d + 1) x0 k
      (((d : ℚ) + 1) / (n : ℚ)) (((d : ℚ) + 2) / (n : ℚ)) hsL hknn
    have hstop : x0 + valList (c :: rest) * k = x1 := by
      rw [hkdef]
      by_cases hv : valList (c :: rest) = 0
      · rw [if_pos hv, hv]
        have hx01 : x0 = x1 := hz (by simp [val, hv])
        simpa using hx01
      · rw [if_neg hv]
        field_simp
    rw [hstop] at hchain
    have hparts := exactPart_layoutChildren (c :: rest) n (d + 1) x0 k
      (((d : ℚ) + 1) / (n : ℚ)) (((d : ℚ) + 2) / (n : ℚ)) hsL hlL hknn
    revert hchain hparts
    simp only [layoutChildren, exactPart, exactPartL, Bool.and_eq_true]
    exact fun h1 h2 => ⟨h1, h2⟩
termination_by structural t => t

/-- exactPart_layoutNode lifted over a diced list of siblings. -/
theorem exactPart_layoutChildren : ∀ (l : List Raw) (n d : ℕ) (x k y0 y1 : ℚ),
    sizesOKL l = true → leafOnlyL l = true → 0 ≤ k →
    exactPartL (layoutChildren n d x k y0 y1 l) = true
  | [], _, _, _, _, _, _, _, _, _ => by simp [layoutChildren, exactPartL]
  | c :: rest, n, d, x, k, y0, y1, hs, hl, hknn => by
    simp only [sizesOKL, Bool.and_eq_true] at hs
    simp only [leafOnlyL, Bool.and_eq_true] at hl
    have hw : 0 ≤ val c * k := mul_nonneg (val_nonneg c hs.1) hknn
    simp only [layoutChildren, exactPartL, Bool.and_eq_true]
    refine ⟨exactPart_layoutNode c n d x (x + val c * k) y0 y1 hs.1 hl.1
        (le_add_of_nonneg_right hw) ?_,
      exactPart_layoutChildren rest n d (x + val c * k) k y0 y1 hs.2 hl.2 hknn⟩
    intro h0
    rw [h0, zero_mul, add_zero]
termination_by structural l => l

end

mutual

/-- Under nonnegative sizes, a node laid out inside [0, 1] keeps all of
its subtree inside [0, 1] with no inverted interval. -/
theorem inUnit_layoutNode : ∀ (t : Raw) (n d : ℕ) (x0 x1 y0 y1 : ℚ),
    sizesOK t = true → 0 ≤ x0 → x0 ≤ x1 → x1 ≤ 1 →
    inUnit (layoutNode n d x0 x1 y0 y1 t) = true
  | .node s cs, n, d, x0, x1, y0, y1, hs, h0, hle, h1 => by
    have hnl : ¬ (x1 < x0) := not_lt.mpr hle
    simp only [sizesOK, Bool.and_eq_true, decide_eq_true_eq] at hs
    obtain ⟨hsn, hsL⟩ := hs
    have hvnn : 0 ≤ valList cs := valList_nonneg cs hsL
    simp only [layoutNode, if_neg hnl, inUnit, Bool.and_eq_true,
      decide_eq_true_eq]
    refine ⟨⟨⟨h0, hle⟩, h1⟩, ?_⟩
    set k := if s + valList cs = 0 then 0
      else (x1 - x0) / (s + valList cs) with hkdef
    have hknn : 0 ≤ k := by
      rw [hkdef]
      split
      · exact le_rfl
      · exact div_nonneg (sub_nonneg.mpr hle) (add_nonneg hsn hvnn)
    have hbound : x0 + valList cs * k ≤ 1 := by
      rw [hkdef]
      by_cases hv : s + valList cs = 0
      · rw [if_pos hv]
        simpa using le_trans hle h1
      · rw [if_neg hv]
        have hvp : 0 < s + valList cs :=
          lt_of_le_of_ne (add_nonneg hsn hvnn) (Ne.symm hv)
        have hm : valList cs * ((x1 - x0) / (s + valList cs)) ≤
            (s + valList cs) * ((x1 - x0) / (s + valList cs)) := by
          apply mul_le_mul_of_nonneg_right
          · linarith
          · exact div_nonneg (sub_nonneg.mpr hle) (le_of_lt hvp)
        have heq : (s + valList cs) * ((x1 - x0) / (s + valList cs)) =
            x1 - x0 := by
          field_simp
        linarith
    exact inUnitL_layoutChildren cs n (d + 1) x0 k
      (((d : ℚ) + 1) / (n : ℚ)) (((d : ℚ) + 2) / (n : ℚ)) hsL hknn h0 hbound
termination_by structural t => t

/-- inUnit_layoutNode lifted over a diced list of siblings. -/
theorem inUnitL_layoutChildren : ∀ (l : List Raw) (n d : ℕ) (x k y0 y1 : ℚ),
    sizesOKL l = true → 0 ≤ k → 0 ≤ x → x + valList l * k ≤ 1 →
    inUnitL (layoutChildren n d x k y0 y1 l) = true
  | [], _, _, _, _, _, _, _, _, _, _ => by simp [layoutChildren, inUnitL]
  | c :: rest, n, d, x, k, y0, y1, hs, hk, hx, hb => by
    simp only [sizesOKL, Bool.and_eq_true] at hs
    have hcn : 0 ≤ val c := val_nonneg c hs.1
    have hrn : 0 ≤ valList rest := valList_nonneg rest hs.2
    have hw : 0 ≤ val c * k := mul_nonneg hcn hk
    have hrw : 0 ≤ valList rest * k := mul_nonneg hrn hk
    have heq : valList (c :: rest) * k = val c * k + valList rest * k := by
      simp only [valList]
      ring
    simp only [layoutChildren, inUnitL, Bool.and_eq_true]
    refine ⟨inUnit_layoutNode c n d x (x + val c * k) y0 y1 hs.1 hx
        (le_add_of_nonneg_right hw) (by linarith),
      inUnitL_layoutChildren rest n d (x + val c * k) k y0 y1 hs.2 hk
        (by linarith) (by linarith)⟩
termination_by structural l => l

end

mutual

/-- Every node laid out at depth d with the radial band handed down by
d3-partition stores y0 = d / n and y1 = (d + 1) / n, and so do all of
its descendants at their own depths. -/
theorem bands_layoutNode : ∀ (t : Raw) (n d : ℕ) (x0 x1 y0 y1 : ℚ),
    0 < n → y0 = (d : ℚ) / (n : ℚ) → y1 = ((d : ℚ) + 1) / (n : ℚ) →
    bandsOK (n : ℚ) d (layoutNode n d x0 x1 y0 y1 t) = true
  | .node s cs, n, d, x0, x1, y0, y1, hn, hy0, hy1 => by
    have hnq : (0 : ℚ) < (n : ℚ) := by exact_mod_cast hn
    subst hy0
    subst hy1
    have hny : ¬ (((d : ℚ) + 1) / (n : ℚ) < (d : ℚ) / (n : ℚ)) := by
      apply not_lt.mpr
      exact (div_le_div_iff_of_pos_right hnq).mpr (by linarith)
    simp only [layoutNode, if_neg hny, bandsOK, Bool.and_eq_true,
      decide_eq_true_eq]
    refine ⟨⟨trivial, trivial⟩, ?_⟩
    exact bands_layoutChildren cs n (d + 1) x0 _ _ _ hn
      (by push_cast; ring) (by push_cast; ring)
termination_by structural t => t

/-- bands_layoutNode lifted over a diced list of siblings, all at the
same depth. -/
theorem bands_layoutChildren : ∀ (l : List Raw) (n d : ℕ) (x k y0 y1 : ℚ),
    0 < n → y0 = (d : ℚ) / (n : ℚ) → y1 = ((d : ℚ) + 1) / (n : ℚ) →
    bandsOKL (n : ℚ) d (layoutChildren n d x k y0 y1 l) = true
  | [], _, _, _, _, _, _, _, _, _ => by simp [layoutChildren, bandsOKL]
  | c :: rest, n, d, x, k, y0, y1, hn, hy0, hy1 => by
    simp only [layoutChildren, bandsOKL, Bool.and_eq_true]
    exact ⟨bands_layoutNode c n d x (x + val c * k) y0 y1 hn hy0 hy1,
      bands_layoutChildren rest n d (x + val c * k) k y0 y1 hn hy0 hy1⟩
termination_by structural l => l

end

/-- Node counting distributes over list append. -/
theorem sizeL_append : ∀ (l1 l2 : List LTree),
    LTree.sizeL (l1 ++ l2) = LTree.sizeL l1 + LTree.sizeL l2
  | [], l2 => by simp [LTree.sizeL]
  | u :: r, l2 => by
    have ih := sizeL_append r l2
    simp only [List.cons_append, LTree.sizeL, List.append_eq] at *
    omega

/-- A frontier accounts for itself plus all nodes below its children. -/
theorem sizeL_kidsAll : ∀ fr : List LTree,
    LTree.sizeL fr = fr.length + LTree.sizeL (kidsAll fr)
  | [] => by simp [LTree.sizeL, kidsAll]
  | u :: r => by
    cases u with
    | node a b c d v cs =>
      simp only [LTree.sizeL, LTree.size, kidsAll, LTree.kids,
        List.length_cons, sizeL_append, sizeL_kidsAll r]
      omega

/-- A member of a sibling list sits strictly below the list height bound. -/
theorem height_le_heightL : ∀ (cs : List LTree) (u : LTree), u ∈ cs →
    u.height + 1 ≤ LTree.heightL cs
  | [], u, h => by simp at h
  | c :: r, u, h => by
    simp only [LTree.heightL]
    rcases List.mem_cons.mp h with h1 | h2
    · subst h1
      exact le_max_left _ _
    · exact le_trans (height_le_heightL r u h2) (le_max_right _ _)

/-- Members of the concatenated children lists come from some frontier
member. -/
theorem mem_kidsAll : ∀ (fr : List LTree) (w : LTree), w ∈ kidsAll fr →
    ∃ u ∈ fr, w ∈ u.kids
  | [], w, h => by simp [kidsAll] at h
  | u :: r, w, h => by
    simp only [kidsAll, List.mem_append] at h
    rcases h with h1 | h2
    · exact ⟨u, List.mem_cons_self u r, h1⟩
    · obtain ⟨u2, hu2, hw⟩ := mem_kidsAll r w h2
      exact ⟨u2, List.mem_cons_of_mem u hu2, hw⟩

/-- With fuel exceeding every frontier height, the level-order traversal
visits each node exactly once. -/
theorem bfs_length : ∀ (fuel : ℕ) (fr : List LTree),
    (∀ u ∈ fr, u.height < fuel) → (bfsAux fuel fr).length = LTree.sizeL fr
  | 0, fr, h => by
    have hfr : fr = [] := by
      cases fr with
      | nil => rfl
      | cons u r => exact absurd (h u (List.mem_cons_self u r)) (by omega)
    subst hfr
    simp [bfsAux, LTree.sizeL]
  | fuel + 1, fr, h => by
    have hnext : ∀ w ∈ kidsAll fr, w.height < fuel := by
      intro w hw
      obtain ⟨u, hu, hwk⟩ := mem_kidsAll fr w hw
      have h1 : w.height + 1 ≤ u.height := by
        cases u with
        | node a b c d v cs =>
          simp only [LTree.kids] at hwk
          simpa only [LTree.height] using height_le_heightL cs w hwk
      have h2 := h u hu
      omega
    simp only [bfsAux, List.length_append, bfs_length fuel (kidsAll fr) hnext]
    exact (sizeL_kidsAll fr).symm

/-- descendants() lists every node of the layout exactly once. -/
theorem descendantsList_length (u : LTree) :
    (descendantsList u).length = u.size := by
  have h := bfs_length (u.height + 1) [u] (by
    intro w hw
    simp only [List.mem_singleton] at hw
    subst hw
    omega)
  simpa [descendantsList, LTree.sizeL] using h

/-- descendants() starts with the root. -/
theorem descendantsList_head (u : LTree) :
    (descendantsList u).head? = some u := by
  simp [descendantsList, bfsAux]

/-! ## Claim theorems -/

/-- C1, counterexample: in the layout of the tree A value 0 with children
B value 10 and C value 30, node B does not get x1 = 10; partition
coordinates are not in aggregate-value units (B actually gets
x1 = 1/4). -/
theorem C1_cx : ¬ (((partitionLayout demoTree).kids.getD 0 dfltL).x1 = 10) := by
  norm_num [demoTree, partitionLayout, Raw.height, Raw.heightList,
    layoutNode, layoutChildren, val, valList, LTree.kids, LTree.x1, dfltL]

/-- C1, amended: the layout normalizes angular spans to fractions of the
root value in [0, 1].  For the scenario tree A value 0 with children
B value 10 and C value 30: B gets [0, 1/4], C gets [1/4, 1], A gets
[0, 1]; and in general, for every tree with nonnegative sizes, every
node satisfies 0 <= x0 <= x1 <= 1, the spans forming cumulative
intervals in the normalized domain [0, 1]. -/
theorem C1_normalized_spans :
    ((partitionLayout demoTree).x0 = 0 ∧ (partitionLayout demoTree).x1 = 1 ∧
      ((partitionLayout demoTree).kids.getD 0 dfltL).x0 = 0 ∧
      ((partitionLayout demoTree).kids.getD 0 dfltL).x1 = 1 / 4 ∧
      ((partitionLayout demoTree).kids.getD 1 dfltL).x0 = 1 / 4 ∧
      ((partitionLayout demoTree).kids.getD 1 dfltL).x1 = 1) ∧
    ∀ t : Raw, sizesOK t = true → inUnit (partitionLayout t) = true := by
  constructor
  · norm_num [demoTree, partitionLayout, Raw.height, Raw.heightList,
      layoutNode, layoutChildren, val, valList, LTree.kids, LTree.x0,
      LTree.x1, dfltL]
  · intro t ht
    exact inUnit_layoutNode t (t.height + 1) 0 0 1 0
      (1 / ((t.height : ℚ) + 1)) ht le_rfl zero_le_one le_rfl

/-- C1, witness: the general bound of C1_normalized_spans applied to the
scenario tree. -/
theorem C1_normalized_spans_witness :
    inUnit (partitionLayout demoTree) = true :=
  C1_normalized_spans.2 demoTree (by norm_num [demoTree, sizesOK, sizesOKL])

/-- C2, counterexample: for the tree with an internal node of own size 5
above a single leaf of size 10, the child interval [0, 2/3] does not
exactly partition the root interval [0, 1]: node.sum counts the own size of the internal node in its aggregate
value, so the children cover only an initial part of the parent
span. -/
theorem C2_cx :
    exactPart (partitionLayout (Raw.node 5 [Raw.node 10 []])) = false := by
  norm_num [partitionLayout, Raw.height, Raw.heightList, layoutNode,
    layoutChildren, val, valList, exactPart, exactPartL, chainFrom,
    LTree.x0, LTree.x1]

/-- C2, amended: for every tree whose sizes are nonnegative, carried on
leaves only (internal nodes contribute 0), and whose total value is
positive, the angular interval of every internal node is exactly
partitioned by the intervals of its children in traversal order:
contiguous, non-overlapping, covering the parent span; consequently
(second conjunct) the widths of the children sum to the width of the
parent. -/
theorem C2_partition_exact :
    (∀ t : Raw, sizesOK t = true → leafOnly t = true → 0 < val t →
      exactPart (partitionLayout t) = true) ∧
    ∀ (l : List LTree) (a b : ℚ), chainFrom a b l = true →
      (l.map (fun u => u.x1 - u.x0)).sum = b - a := by
  constructor
  · intro t hs hl hv
    exact exactPart_layoutNode t (t.height + 1) 0 0 1 0
      (1 / ((t.height : ℚ) + 1)) hs hl zero_le_one
      (fun h0 => absurd h0 (ne_of_gt hv))
  · exact fun l a b h => chainFrom_sum l a b h

/-- C2, witness: the partition-exactness of C2_partition_exact applied to
the scenario tree. -/
theorem C2_partition_exact_witness :
    exactPart (partitionLayout demoTree) = true :=
  C2_partition_exact.1 demoTree (by norm_num [demoTree, sizesOK, sizesOKL])
    (by norm_num [demoTree, leafOnly, leafOnlyL])
    (by norm_num [demoTree, val, valList])

/-- C3, counterexample: for the tree A with children B (having a
grandchild D) and C, the descendants list used for id assignment is in
breadth-first order A, B, C, D, not in pre-order A, B, D, C: the x0
projections of the two traversals differ. -/
theorem C3_cx :
    (descendantsList (partitionLayout deepTree)).map LTree.x0 ≠
      (preorderT (partitionLayout deepTree)).map LTree.x0 := by
  norm_num [deepTree, partitionLayout, Raw.height, Raw.heightList,
    layoutNode, layoutChildren, val, valList, descendantsList, LTree.height,
    LTree.heightL, bfsAux, kidsAll, LTree.kids, preorderT, preorderL,
    LTree.x0]

/-- C3, amended: the forEach of line 63 assigns ids equal to positions in
the descendants list, which is the breadth-first (level-order) traversal
of the layout, not the pre-order one; the ids are exactly 0..N-1 for N
the number of layout nodes (hence unique), and the root, heading the
list, receives id 0. -/
theorem C3_ids_level_order : ∀ t : Raw,
    ((descendantsList (partitionLayout t)).enum.map Prod.fst) =
      List.range (partitionLayout t).size ∧
    (descendantsList (partitionLayout t)).head? = some (partitionLayout t) := by
  intro t
  refine ⟨?_, descendantsList_head (partitionLayout t)⟩
  rw [List.enum_map_fst, descendantsList_length]

/-- C4, counterexample: in the layout of the scenario tree, node B (at
depth 1) has y0 = 1/2 and y1 = 1, so neither y1 - y0 = 1 nor
y0 = depth holds. -/
theorem C4_cx :
    ¬ (((partitionLayout demoTree).kids.getD 0 dfltL).y1 -
        ((partitionLayout demoTree).kids.getD 0 dfltL).y0 = 1 ∧
      ((partitionLayout demoTree).kids.getD 0 dfltL).y0 = 1) := by
  norm_num [demoTree, partitionLayout, Raw.height, Raw.heightList,
    layoutNode, layoutChildren, val, valList, LTree.kids, LTree.y0,
    LTree.y1, dfltL]

/-- C4, amended: with the default partition size [1, 1], every node at
depth d has y0 = d / (height + 1) and y1 = (d + 1) / (height + 1): the
depth bands are uniform of thickness 1 / (height + 1) in [0, 1], with
the root band starting at 0 - not unit-thickness bands at integer
depths. -/
theorem C4_depth_bands : ∀ t : Raw,
    bandsOK ((t.height + 1 : ℕ) : ℚ) 0 (partitionLayout t) = true := by
  intro t
  exact bands_layoutNode t (t.height + 1) 0 0 1 0 (1 / ((t.height : ℚ) + 1))
    (Nat.succ_pos _) (by simp) (by push_cast; ring)

/-- C5, counterexample: with minSliceAngle 0, the zero-width slice Z of
the zeroSliceTree overlaps the whole-tree focus window yet is filtered
out (hidden purely for its angular width); and with minSliceAngle 100
and the focus on node C, the root - a different node than C - is still
visible, because its span exceeds 100/360 of the focus window. -/
theorem C5_cx :
    (wholeTreeSentinel.x0 ≤
        ((partitionLayout zeroSliceTree).kids.getD 1 dfltL).x1 ∧
      ((partitionLayout zeroSliceTree).kids.getD 1 dfltL).x0 ≤
        wholeTreeSentinel.x1 ∧
      sliceVisible 0 wholeTreeSentinel
        ((partitionLayout zeroSliceTree).kids.getD 1 dfltL) = false) ∧
    (sliceVisible 100
        (focusRectOf ((partitionLayout zeroSliceTree).kids.getD 2 dfltL))
        (partitionLayout zeroSliceTree) = true ∧
      (partitionLayout zeroSliceTree).x0 ≠
        ((partitionLayout zeroSliceTree).kids.getD 2 dfltL).x0) := by
  norm_num [zeroSliceTree, partitionLayout, Raw.height, Raw.heightList,
    layoutNode, layoutChildren, val, valList, LTree.kids, LTree.x0, LTree.x1,
    LTree.y0, LTree.y1, dfltL, sliceVisible, wholeTreeSentinel, focusRectOf]

/-- C5, amended: with minSliceAngle 0 a node overlapping a positive-width
focus window is shown exactly when its own angular width is positive
(zero-width nodes are still hidden); with minSliceAngle 100 every node
whose span is at most 100/360 of the focus window is hidden, while the
focused node itself (its span being the whole window) stays shown. -/
theorem C5_min_slice_filter :
    (∀ (f : FocusRect) (u : LTree), f.x0 ≤ u.x1 → u.x0 ≤ f.x1 →
      0 < f.x1 - f.x0 → (sliceVisible 0 f u = true ↔ u.x0 < u.x1)) ∧
    (∀ (f : FocusRect) (u : LTree),
      (u.x1 - u.x0) / (f.x1 - f.x0) ≤ 100 / 360 →
      sliceVisible 100 f u = false) ∧
    (∀ u : LTree, u.x0 < u.x1 →
      sliceVisible 100 (focusRectOf u) u = true) := by
  refine ⟨?_, ?_, ?_⟩
  · intro f u h1 h2 hw
    have hcore : (0 : ℚ) < (u.x1 - u.x0) / (f.x1 - f.x0) ↔ u.x0 < u.x1 := by
      rw [div_pos_iff]
      constructor
      · rintro (⟨hn, _⟩ | ⟨_, hd⟩)
        · linarith
        · linarith
      · intro h
        exact Or.inl ⟨by linarith, hw⟩
    simp [sliceVisible, h1, h2, zero_div, hcore]
  · intro f u hr
    have hnot : ¬ ((100 : ℚ) / 360 < (u.x1 - u.x0) / (f.x1 - f.x0)) :=
      not_lt.mpr hr
    simp [sliceVisible, hnot]
  · intro u h
    have hr : (u.x1 - u.x0) / (u.x1 - u.x0) = 1 := div_self (by linarith)
    simp only [sliceVisible, focusRectOf]
    norm_num [hr]
    exact le_of_lt h

/-- C5, witness: the focused node itself passes the filter at
minSliceAngle 100 for a concrete node spanning [0, 1]. -/
theorem C5_min_slice_filter_witness :
    sliceVisible 100 (focusRectOf (LTree.node 0 1 0 1 40 []))
      (LTree.node 0 1 0 1 40 []) = true :=
  C5_min_slice_filter.2.2 (LTree.node 0 1 0 1 40 [])
    (by norm_num [LTree.x0, LTree.x1])

/-- C6, counterexample: the no-focus fallback of line 126 is the literal
rectangle with x1 = 1, not x1 = totalValue: for the scenario tree of
total value 40 the claimed sentinel differs from the actual one. -/
theorem C6_cx : resolveFocus none ≠ FocusRect.mk 0 (val demoTree) 0 1 := by
  norm_num [resolveFocus, wholeTreeSentinel, demoTree, val, valList,
    FocusRect.mk.injEq]

/-- C6, amended: on every update the scale tween interpolates the angular
domain from its current value to [focusD.x0, focusD.x1] and the radial
domain to [focusD.y0, 1] (value at t = 1 is the target, at t = 0 the
current domains); when no focus node is resolved, focusD is the
whole-tree sentinel with x0 = 0, x1 = 1, y0 = 0, y1 = 1 - the whole
tree because spans are normalized to [0, 1], not x1 = totalValue. -/
theorem C6_zoom_targets :
    (∀ (cur : ScaleDomains) (f : FocusRect),
      zoomTween cur f 1 = ⟨f.x0, f.x1, f.y0, 1⟩ ∧ zoomTween cur f 0 = cur) ∧
    (∀ f : FocusRect, resolveFocus (some f) = f) ∧
    resolveFocus none = ⟨0, 1, 0, 1⟩ := by
  refine ⟨?_, fun f => rfl, rfl⟩
  intro cur f
  obtain ⟨a0, a1, r0, r1⟩ := cur
  constructor
  · simp only [zoomTween, interpNum, ScaleDomains.mk.injEq]
    refine ⟨by ring, by ring, by ring, by ring⟩
  · simp only [zoomTween, interpNum, ScaleDomains.mk.injEq]
    refine ⟨by ring, by ring, by ring, by ring⟩

/-- C7: a label is rendered exactly when
length * CHAR_PX < mean radius * scaled angular sweep, and otherwise its
whole text is hidden via display none; in particular a 50-character
label on a wedge of perimeter 100 is hidden, since 50 * 6 = 300 >= 100. -/
theorem C7_label_fit :
    (∀ (aS rS : ℚ → ℚ) (len : ℕ) (u : LTree),
      labelDisplay true (textFits aS rS len u) = none ↔
        (len : ℚ) * CHAR_PX < arcPerimeter aS rS u) ∧
    labelDisplay true
      (textFits (fun x => 2 * x) (fun _ => 50) 50 (LTree.node 0 1 0 1 0 [])) =
      some "none" ∧
    arcPerimeter (fun x => 2 * x) (fun _ => 50) (LTree.node 0 1 0 1 0 []) =
      100 := by
  refine ⟨?_, ?_, ?_⟩
  · intro aS rS len u
    simp [labelDisplay, textFits]
  · norm_num [labelDisplay, textFits, arcPerimeter, CHAR_PX, LTree.x0,
      LTree.x1, LTree.y0, LTree.y1]
  · norm_num [arcPerimeter, LTree.x0, LTree.x1, LTree.y0, LTree.y1]

/-- C8, counterexample: at the concrete reconciliation with no previous
slices and one entering datum with id 7, the entering slice ends at
opacity 1 through a plain style write (line 200), not through the shared
transition - only its geometry write is routed through the transition -
so its opacity is not faded over the transition duration as claimed. -/
theorem C8_cx :
    ((renderPass [] [7]).getD 0 (enterSlice 0)).opacity = 1 ∧
    ((renderPass [] [7]).getD 0 (enterSlice 0)).opacityAnimated = false ∧
    ((renderPass [] [7]).getD 0 (enterSlice 0)).geomAnimated = true := by
  refine ⟨rfl, rfl, rfl⟩

/-- C8, amended: every entering node (a datum of the new set whose id
matches no previous slice) is created at opacity 0 with the click,
mouseover and mouseout handlers wired, and ends the render pass at
opacity 1 - set by an immediate style write, not animated over the
shared transition - while its geometry is retargeted through the shared
transition. -/
theorem C8_enter_nodes :
    ∀ (old : List SliceElem) (newIds : List ℕ) (i : ℕ),
      i ∈ newIds → (∀ s ∈ old, s.sliceId ≠ i) →
      (enterSlice i ∈ joinSlices old newIds ∧
        (enterSlice i).opacity = 0 ∧ (enterSlice i).clickWired = true ∧
        (enterSlice i).mouseoverWired = true ∧
        (enterSlice i).mouseoutWired = true) ∧
      { enterSlice i with
        opacity := 1
        opacityAnimated := false
        geomAnimated := true } ∈ renderPass old newIds := by
  intro old newIds i hmem hold
  have hfind : old.find? (fun s => s.sliceId == i) = none := by
    apply List.find?_eq_none.mpr
    intro s hs
    simpa using hold s hs
  have hjoin : enterSlice i ∈ joinSlices old newIds := by
    simp only [joinSlices]
    apply List.mem_map.mpr
    exact ⟨i, hmem, by simp only [hfind]⟩
  refine ⟨⟨hjoin, rfl, rfl, rfl, rfl⟩, ?_⟩
  simp only [renderPass]
  apply List.mem_map.mpr
  exact ⟨enterSlice i, hjoin, rfl⟩

/-- C8, witness: the reconciliation facts applied with no previous
slices and the single entering id 7. -/
theorem C8_enter_nodes_witness :
    enterSlice 7 ∈ joinSlices [] [7] ∧
    { enterSlice 7 with
      opacity := 1
      opacityAnimated := false
      geomAnimated := true } ∈ renderPass [] [7] := by
  have h := C8_enter_nodes [] [7] 7 (by simp) (by simp)
  exact ⟨h.1.1, h.2⟩

/-- C9, counterexample: after data is set to the scenario tree and then
cleared, the data property is absent, yet the stale layout is still in
place and the render pass still binds all 3 slices (at the default
minSliceAngle of 0.2 and the whole-tree focus): clearing data does not
stop the chart from drawing. -/
theorem C9_cx :
    (setData none (setData (some demoTree) initState)).data = none ∧
    (renderSlices (setData none (setData (some demoTree) initState))
      (2 / 10) wholeTreeSentinel).length = 3 := by
  refine ⟨rfl, ?_⟩
  norm_num [setData, _parseData, initState, renderSlices, demoTree,
    partitionLayout, Raw.height, Raw.heightList, layoutNode, layoutChildren,
    val, valList, descendantsList, LTree.height, LTree.heightL, bfsAux,
    kidsAll, LTree.kids, sliceVisible, wholeTreeSentinel, LTree.x0, LTree.x1,
    List.filter]

/-- C9, amended: when data is absent _parseData performs no work (it is
the identity on the state), and when no layout was ever computed the
render pass binds no slices; but _parseData does not clear a previously
computed layout, so after data was set and then cleared the old layout
remains and continues to render. -/
theorem C9_no_layout_no_render :
    (∀ s : ChartState, s.data = none → _parseData s = s) ∧
    (∀ (s : ChartState) (m : ℚ) (f : FocusRect), s.layoutData = none →
      renderSlices s m f = []) ∧
    (setData none (setData (some demoTree) initState)).layoutData =
      (setData (some demoTree) initState).layoutData := by
  refine ⟨?_, ?_, rfl⟩
  · intro s h
    simp [_parseData, h]
  · intro s m f h
    simp [renderSlices, h]

/-- C9, witness: the no-work and no-render facts applied to the freshly
initialised state. -/
theorem C9_no_layout_no_render_witness :
    _parseData initState = initState ∧
    renderSlices initState (2 / 10) wholeTreeSentinel = [] :=
  ⟨C9_no_layout_no_render.1 initState rfl,
    C9_no_layout_no_render.2.1 initState (2 / 10) wholeTreeSentinel rfl⟩

/-- C10: on every update the radius scale range is
[0.1 * maxRadius, maxRadius] with maxRadius = min(width, height) / 2, so
for a positive viewport (and a radius-scale domain whose transformed
endpoints differ, as holds for any non-degenerate zoom domain) the inner
radius drawn at the radial domain minimum is exactly maxRadius / 10,
which is strictly positive: the chart keeps a central hole and the
inner edge of the focused node is never drawn at radius 0. -/
theorem C10_inner_hole :
    ∀ (w h : ℚ) (tr : ℚ → ℚ) (d0 d1 : ℚ), 0 < w → 0 < h →
      tr d0 ≠ tr d1 →
      arcInnerRadius tr d0 d1 (radiusRange w h).1 (radiusRange w h).2 d0 =
        maxRadius w h * (1 / 10) ∧
      0 < maxRadius w h * (1 / 10) := by
  intro w h tr d0 d1 hw hh hne
  have hR : 0 < maxRadius w h := by
    simp only [maxRadius]
    have := lt_min hw hh
    linarith
  have hb : tr d1 - tr d0 ≠ 0 := sub_ne_zero.mpr (Ne.symm hne)
  have hval : scaleApply tr d0 d1 (radiusRange w h).1 (radiusRange w h).2 d0 =
      maxRadius w h * (1 / 10) := by
    simp [scaleApply, radiusRange, if_neg hb]
  refine ⟨?_, by linarith⟩
  rw [arcInnerRadius, hval]
  exact max_eq_right (by linarith)

/-- C10, witness: for a 200 x 300 viewport and the radial domain [0, 1]
with the identity transform, the inner radius at the domain minimum is
10, which is positive. -/
theorem C10_inner_hole_witness :
    arcInnerRadius id 0 1 (radiusRange 200 300).1 (radiusRange 200 300).2 0 =
      10 ∧ (0 : ℚ) < 10 := by
  have h := C10_inner_hole 200 300 id 0 1 (by norm_num) (by norm_num)
    (by norm_num)
  refine ⟨?_, by norm_num⟩
  rw [h.1]
  norm_num [maxRadius, min_def]
